import Mathlib

/-!
Verification development for a work-stealing job scheduler.

The C++ sources are shallowly embedded: each C++ member function relevant to
the properties below is translated into a Lean function over an explicit state
record.  Machine integers (`uint32_t` counters) are modelled as `Nat` with an
explicit `% 2^32` where overflow can occur; the signed deque counters
(`int32_t top`, `bottom`, asserted far from their bounds by the code) are
modelled as `Int`.  Null-pointer dereference (undefined behaviour) is modelled
by returning `none` from the embedded function.
-/

namespace JobSched

/-- Modulus of the `uint32_t` counters used throughout the job system. -/
def u32 : Nat := 2 ^ 32

/-- Behaviour of `fetch_add(1)` on a `std::atomic<uint32_t>`: the stored value. -/
def inc32 (v : Nat) : Nat := (v + 1) % u32

/-- Behaviour of `fetch_sub(1)` on a `std::atomic<uint32_t>`: the stored value
(wraps around at zero, like the machine subtraction). -/
def dec32 (v : Nat) : Nat := (v + (u32 - 1)) % u32

theorem inc32_eq {v : Nat} (h : v + 1 < u32) : inc32 v = v + 1 := by
  simp [inc32, Nat.mod_eq_of_lt h]

theorem dec32_eq {v : Nat} (h1 : 1 ≤ v) (h2 : v < u32) : dec32 v = v - 1 := by
  unfold dec32 u32 at *
  omega

end JobSched

namespace JobQueue

/-- Capacity of the work-stealing deque, `queue_capacity` in `Config.h`. -/
def queue_capacity : Int := 4096

/-- State of one `JobQueue`: the ring buffer of atomic job pointers (indexed by
the value of `bottom % queue_capacity` the C++ code computes, a C++ truncated
remainder), and the two signed counters.  A slot holds `none` when the C++
atomic still holds `nullptr`.  `α` is the type used to identify a `Job*`. -/
structure QState (α : Type) where
  ring : Int → Option α
  top : Int
  bottom : Int

/-- Ring-buffer store: `ring_buffer[i].store(job)`. -/
def setSlot {α : Type} (r : Int → Option α) (i : Int) (v : Option α) : Int → Option α :=
  fun j => if j = i then v else r j

/-- Embedding of `JobQueue::push`.  Returns the C++ return value and the state
after the call. -/
def push {α : Type} (s : QState α) (job : α) : Bool × QState α :=
  let local_bottom := s.bottom
  let local_top := s.top
  if local_bottom - local_top = queue_capacity then
    (false, s)
  else
    (true, { s with
      ring := setSlot s.ring (Int.tmod local_bottom queue_capacity) (some job),
      bottom := local_bottom + 1 })

/-- Embedding of `JobQueue::pop`.  `thiefInc` is the number of successful
thief `steal` CAS operations that hit `top` between this call's relaxed load
of `top` and its own CAS (thieves only ever increment `top`); an uncontended
(single-threaded) execution is `thiefInc = 0`.  The CAS in the last-element
branch therefore succeeds exactly when `thiefInc = 0`. -/
def pop {α : Type} (s : QState α) (thiefInc : Nat) : Option α × QState α :=
  let local_bottom := s.bottom - 1
  let s1 : QState α := { s with bottom := local_bottom }
  let local_top := s1.top
  if local_bottom < local_top then
    (none, { s1 with bottom := local_bottom + 1 })
  else
    let job := s1.ring (Int.tmod local_bottom queue_capacity)
    if local_top < local_bottom then
      (job, s1)
    else
      if thiefInc = 0 then
        (job, { s1 with top := local_top + 1, bottom := local_bottom + 1 })
      else
        (none, { s1 with top := local_top + thiefInc, bottom := local_bottom + 1 })

/-- Embedding of `JobQueue::steal`, with the same interference convention:
`thiefInc` counts competing successful `top` CASes between the acquire load of
`top` and this call's own CAS. -/
def steal {α : Type} (s : QState α) (thiefInc : Nat) : Option α × QState α :=
  let local_top := s.top
  let local_bottom := s.bottom
  if local_bottom ≤ local_top then
    (none, s)
  else
    let job := s.ring (Int.tmod local_top queue_capacity)
    if thiefInc = 0 then
      (job, { s with top := local_top + 1 })
    else
      (none, { s with top := local_top + thiefInc })

/-- Embedding of `JobQueue::reset`. -/
def reset {α : Type} (s : QState α) : QState α :=
  { s with top := 0, bottom := 0 }

end JobQueue

namespace JobSched

open JobQueue

/-- Example empty queue used by witnesses. -/
def qEmpty : QState Nat := { ring := fun _ => none, top := 0, bottom := 0 }

/-- Example one-element queue used by witnesses. -/
def qOne : QState Nat := { ring := fun _ => some 7, top := 0, bottom := 1 }

/-- C3: `JobQueue::push` fails exactly on a full deque (length `bottom - top`
equal to the capacity 4096), leaving the whole state unchanged; otherwise it
stores the job into slot `bottom mod capacity`, increments `bottom` and
returns true. -/
theorem push_full_iff (s : QState Nat) (j : Nat) :
    ((push s j).1 = false ↔ s.bottom - s.top = 4096) ∧
    (s.bottom - s.top = 4096 → (push s j).2 = s) ∧
    (s.bottom - s.top ≠ 4096 →
      (push s j).1 = true ∧
      (push s j).2 = { s with
        ring := setSlot s.ring (Int.tmod s.bottom queue_capacity) (some j),
        bottom := s.bottom + 1 }) := by
  unfold push queue_capacity
  by_cases h : s.bottom - s.top = 4096 <;> simp [h]

/-- Witness for `push_full_iff` at the empty queue. -/
theorem push_full_iff_witness :
    qEmpty.bottom - qEmpty.top ≠ 4096 ∧ (push qEmpty 5).1 = true :=
  ⟨by decide, ((push_full_iff qEmpty 5).2.2 (by decide)).1⟩

/-- C2: behaviour of `JobQueue::pop`.  On an empty deque it returns null and
restores `bottom`, leaving the length zero; with more than one element it
returns the slot holding the most recently pushed job and does not touch
`top`; in the last-element case it restores `bottom` to the claim value plus
one in both the CAS-success branch (`thiefInc = 0`, returning the job) and the
CAS-failure branch (`thiefInc > 0`, returning null).  The final conjunct
identifies the returned slot with the most recently pushed job. -/
theorem pop_uncontended (s : QState Nat) :
    (s.bottom ≤ s.top → pop s 0 = (none, s)) ∧
    (s.bottom = s.top → (pop s 0).2.bottom - (pop s 0).2.top = 0) ∧
    (s.top < s.bottom - 1 →
      pop s 0 = (s.ring (Int.tmod (s.bottom - 1) queue_capacity),
        { s with bottom := s.bottom - 1 })) ∧
    (s.bottom - 1 = s.top →
      pop s 0 = (s.ring (Int.tmod (s.bottom - 1) queue_capacity),
        { s with top := s.top + 1 }) ∧
      ∀ k : Nat, 0 < k →
        pop s k = (none, { s with top := s.top + (k : Int) })) ∧
    (∀ (s₀ : QState Nat) (j : Nat), (push s₀ j).1 = true → s = (push s₀ j).2 →
      s.top < s.bottom - 1 → (pop s 0).1 = some j) := by
  refine ⟨fun h => ?_, fun h => ?_, fun h => ?_, fun h => ⟨?_, fun k hk => ?_⟩,
    fun s₀ j hp hs h => ?_⟩
  · unfold pop
    rw [if_pos (by omega : s.bottom - 1 < s.top)]
    have hb : s.bottom - 1 + 1 = s.bottom := by omega
    rw [hb]
  · unfold pop
    rw [if_pos (by omega : s.bottom - 1 < s.top)]
    simp
    omega
  · unfold pop
    rw [if_neg (by omega : ¬ s.bottom - 1 < s.top),
      if_pos (by omega : s.top < s.bottom - 1)]
  · unfold pop
    rw [if_neg (by omega : ¬ s.bottom - 1 < s.top),
      if_neg (by omega : ¬ s.top < s.bottom - 1)]
    have hb : s.bottom - 1 + 1 = s.bottom := by omega
    rw [hb, h]
    simp
  · unfold pop
    rw [if_neg (by omega : ¬ s.bottom - 1 < s.top),
      if_neg (by omega : ¬ s.top < s.bottom - 1),
      if_neg (by omega : ¬ k = 0)]
    have hb : s.bottom - 1 + 1 = s.bottom := by omega
    rw [hb, h]
  · unfold push at hp hs
    by_cases hc : s₀.bottom - s₀.top = queue_capacity
    · rw [if_pos hc] at hp
      simp at hp
    · rw [if_neg hc] at hs
      subst hs
      unfold pop
      simp only at h ⊢
      rw [if_neg (by omega : ¬ s₀.bottom + 1 - 1 < s₀.top),
        if_pos (by omega : s₀.top < s₀.bottom + 1 - 1)]
      have hb : s₀.bottom + 1 - 1 = s₀.bottom := by omega
      rw [hb]
      unfold setSlot
      simp

/-- Witness for `pop_uncontended`: last-element case of a one-element queue,
both CAS outcomes. -/
theorem pop_uncontended_witness :
    qOne.bottom - 1 = qOne.top ∧
    pop qOne 0 = (qOne.ring (Int.tmod (qOne.bottom - 1) queue_capacity),
      { qOne with top := qOne.top + 1 }) ∧
    pop qOne 1 = (none, { qOne with top := qOne.top + ((1 : Nat) : Int) }) :=
  ⟨by decide, ((pop_uncontended qOne).2.2.2.1 (by decide)).1,
    ((pop_uncontended qOne).2.2.2.1 (by decide)).2 1 (by decide)⟩

end JobSched

namespace JobGraph

/-- State of one `JobGraphNode`.  Nodes are identified by their creation index
in the owning graph (the C++ code uses pointers; distinct indices correspond to
distinct `JobGraphNode*`).  The root job's function pointer and parameter
bytes are irrelevant to the claims and omitted; the root job itself is
identified by the owning node's index.  Counters are `uint32_t`. -/
structure GNode where
  initial_predecessor_amount : Nat
  predecessor_amount : Nat
  unfinished_amount : Nat
  successors : List Nat

instance : Inhabited GNode :=
  ⟨{ initial_predecessor_amount := 0, predecessor_amount := 0,
     unfinished_amount := 1, successors := [] }⟩

/-- Node state freshly produced by the `JobGraphNode` constructor. -/
def freshNode : GNode :=
  { initial_predecessor_amount := 0, predecessor_amount := 0,
    unfinished_amount := 1, successors := [] }

/-- State of a `JobGraph`: the owned nodes in creation order and the root-node
index list. -/
structure Graph where
  nodes : List GNode
  root_nodes : List Nat

/-- Reading a node by index (a pointer dereference in the C++ code; all
dereferenced indices in the development are in range). -/
def getN (ns : List GNode) (i : Nat) : GNode := ns.getD i default

/-- Embedding of `JobGraphNode::add_successor`: append `nid` to `p`'s
successor list, then increment `nid`'s `initial_predecessor_amount` and store
the new value into its `predecessor_amount`. -/
def add_successor (g : Graph) (p : Nat) (nid : Nat) : Graph :=
  let pn := getN g.nodes p
  let pn2 : GNode := { pn with successors := pn.successors ++ [nid] }
  let g1 : Graph := { g with nodes := g.nodes.set p pn2 }
  let sn := getN g1.nodes nid
  let ini := JobSched.inc32 sn.initial_predecessor_amount
  let sn2 : GNode :=
    { sn with initial_predecessor_amount := ini, predecessor_amount := ini }
  { g1 with nodes := g1.nodes.set nid sn2 }

/-- Embedding of `JobGraphNode::is_ancestor_of` (a depth-first search over the
successor lists).  The C++ recursion has no termination measure of its own —
it terminates because graphs are acyclic by construction — so the embedding
carries explicit fuel; `new_node` below calls it with fuel equal to the node
count, which is enough for every acyclic graph (proved below). -/
def is_ancestor_of (g : Graph) : Nat → Nat → Nat → Bool
  | 0, _, _ => false
  | fuel + 1, a, b =>
    ((getN g.nodes a).successors.any fun s => s == b) ||
    ((getN g.nodes a).successors.any fun s => is_ancestor_of g fuel s b)

/-- Loop body of the predecessor-taking `JobGraph::new_node` overload: the
predecessor `p` is dropped when it is an ancestor of another listed
predecessor (`q != p` is the C++ pointer comparison `descendant_candidate !=
predecessor`), otherwise the new node `nid` is wired behind it.  The
depth-first search is run with fuel equal to the current node count, which is
enough on the well-formed graphs construction produces. -/
def new_node_step (preds : List Nat) (nid : Nat) (acc : Graph) (p : Nat) : Graph :=
  let redundant := preds.any fun q =>
    q != p && is_ancestor_of acc acc.nodes.length p q
  if redundant then acc else add_successor acc p nid

/-- Embedding of the predecessor-taking overload of `JobGraph::new_node`: a
fresh node is appended, then each predecessor that is an ancestor of another
listed predecessor is dropped and the survivors get the new node appended to
their successor lists. -/
def new_node_preds (g : Graph) (preds : List Nat) : Graph :=
  preds.foldl (new_node_step preds g.nodes.length)
    { nodes := g.nodes ++ [freshNode], root_nodes := g.root_nodes }

/-- Embedding of the no-predecessor overload of `JobGraph::new_node`: the
fresh node is also appended to the root-node list. -/
def new_node_root (g : Graph) : Graph :=
  { nodes := g.nodes ++ [freshNode], root_nodes := g.root_nodes ++ [g.nodes.length] }

/-- Embedding of `JobGraph::get_root_job`: the `index`-th root node's root job
(identified with the node index), null when out of range. -/
def get_root_job (g : Graph) (index : Nat) : Option Nat :=
  if g.root_nodes.length ≤ index then none
  else some (g.root_nodes.getD index 0)

/-- Reachability through successor lists by one or more edges — the relation
`is_ancestor_of` decides on acyclic graphs. -/
inductive Reaches (ns : List GNode) : Nat → Nat → Prop where
  | direct {a b : Nat} : b ∈ (getN ns a).successors → Reaches ns a b
  | step {a b c : Nat} : b ∈ (getN ns a).successors → Reaches ns b c →
      Reaches ns a c

/-- Well-formedness maintained by graph construction: every successor edge
goes from an earlier-created node to a later-created one (which makes the
graph acyclic), and stays inside the node list. -/
def WFNodes (ns : List GNode) : Prop :=
  ∀ i, i < ns.length → ∀ s ∈ (getN ns i).successors, i < s ∧ s < ns.length

instance (ns : List GNode) : Decidable (WFNodes ns) := by
  unfold WFNodes
  exact Nat.decidableBallLT _ _

/-- Well-formedness of a graph value. -/
def WFGraph (g : Graph) : Prop := WFNodes g.nodes

instance (g : Graph) : Decidable (WFGraph g) :=
  inferInstanceAs (Decidable (WFNodes g.nodes))

/-- Construction request for one node: the no-predecessor form or the
predecessor form of `JobGraph::new_node`. -/
inductive NodeSpec where
  | root : NodeSpec
  | withPreds (preds : List Nat) : NodeSpec

/-- Interpretation of one `new_node` call. -/
def buildStep (g : Graph) : NodeSpec → Graph
  | .root => new_node_root g
  | .withPreds ps => new_node_preds g ps

/-- Graph obtained from a sequence of `new_node` calls on a fresh graph. -/
def buildGraph (specs : List NodeSpec) : Graph :=
  specs.foldl buildStep { nodes := [], root_nodes := [] }

/-- Check for the no-predecessor construction form. -/
def isRootSpec : NodeSpec → Bool
  | .root => true
  | .withPreds _ => false

/-- Indices of the nodes created with the no-predecessor form, in creation
order. -/
def rootFormIds (specs : List NodeSpec) : List Nat :=
  (List.range specs.length).filter fun k => isRootSpec (specs.getD k (.withPreds []))



theorem getN_oob {ns : List GNode} {i : Nat} (h : ns.length ≤ i) :
    getN ns i = default := by
  simp [getN, List.getD_eq_getElem?_getD, List.getElem?_eq_none, h]

theorem getN_set_self {ns : List GNode} {i : Nat} {v : GNode}
    (h : i < ns.length) : getN (ns.set i v) i = v := by
  simp [getN, List.getD_eq_getElem?_getD, List.getElem?_set, h]

theorem getN_set_ne {ns : List GNode} {i j : Nat} {v : GNode}
    (h : j ≠ i) : getN (ns.set i v) j = getN ns j := by
  simp [getN, List.getD_eq_getElem?_getD, List.getElem?_set, Ne.symm h]

theorem getN_append_lt {ns ms : List GNode} {j : Nat} (h : j < ns.length) :
    getN (ns ++ ms) j = getN ns j := by
  simp [getN, List.getD_eq_getElem?_getD, List.getElem?_append, h]

theorem getN_append_self {ns : List GNode} {v : GNode} :
    getN (ns ++ [v]) ns.length = v := by
  simp [getN, List.getD_eq_getElem?_getD]

theorem default_successors : (default : GNode).successors = [] := rfl

/-- Every successor edge of a well-formed node list goes strictly up and stays
in range. -/
theorem edge_lt {ns : List GNode} (hwf : WFNodes ns) {a b : Nat}
    (h : b ∈ (getN ns a).successors) : a < b ∧ b < ns.length := by
  by_cases ha : a < ns.length
  · exact hwf a ha b h
  · rw [getN_oob (le_of_not_lt ha), default_successors] at h
    simp at h

theorem reaches_lt {ns : List GNode} (hwf : WFNodes ns) {a b : Nat}
    (h : Reaches ns a b) : a < b := by
  induction h with
  | direct hmem => exact (edge_lt hwf hmem).1
  | step hmem _ ih => exact lt_trans (edge_lt hwf hmem).1 ih

theorem reaches_ub {ns : List GNode} (hwf : WFNodes ns) {a b : Nat}
    (h : Reaches ns a b) : b < ns.length := by
  induction h with
  | direct hmem => exact (edge_lt hwf hmem).2
  | step _ _ ih => exact ih

/-- Soundness of the fuelled depth-first search: a `true` answer means `b` is
reachable from `a`. -/
theorem is_ancestor_of_sound {g : Graph} {fuel : Nat} {a b : Nat}
    (h : is_ancestor_of g fuel a b = true) : Reaches g.nodes a b := by
  induction fuel generalizing a with
  | zero => simp [is_ancestor_of] at h
  | succ n ih =>
    unfold is_ancestor_of at h
    rw [Bool.or_eq_true] at h
    rcases h with h | h
    · rw [List.any_eq_true] at h
      obtain ⟨s, hs, he⟩ := h
      rw [beq_iff_eq] at he
      exact Reaches.direct (he ▸ hs)
    · rw [List.any_eq_true] at h
      obtain ⟨s, hs, he⟩ := h
      exact Reaches.step hs (ih he)

/-- Completeness of the fuelled depth-first search on well-formed (hence
acyclic) graphs: fuel `nodes.length - a` suffices. -/
theorem is_ancestor_of_complete {g : Graph} (hwf : WFNodes g.nodes)
    {a b : Nat} (h : Reaches g.nodes a b) :
    ∀ fuel, g.nodes.length - a ≤ fuel → is_ancestor_of g fuel a b = true := by
  induction h with
  | @direct a b hmem =>
    intro fuel hf
    obtain ⟨h1, h2⟩ := edge_lt hwf hmem
    cases fuel with
    | zero => exact absurd hf (by omega)
    | succ n =>
      unfold is_ancestor_of
      rw [Bool.or_eq_true]
      left
      rw [List.any_eq_true]
      exact ⟨b, hmem, beq_self_eq_true b⟩
  | @step a b c hmem hr ih =>
    intro fuel hf
    obtain ⟨h1, h2⟩ := edge_lt hwf hmem
    cases fuel with
    | zero => exact absurd hf (by omega)
    | succ n =>
      unfold is_ancestor_of
      rw [Bool.or_eq_true]
      right
      rw [List.any_eq_true]
      exact ⟨b, hmem, ih n (by omega)⟩

/-- The node-list length and root list are unchanged by `add_successor`, and
its effect on each node is: `nid` is appended to `p`'s successors, `nid`'s two
predecessor counters become the incremented initial amount, and every other
node is untouched. -/
theorem add_successor_getN {g : Graph} {p nid : Nat} (hpn : p ≠ nid)
    (hp : p < g.nodes.length) (hn : nid < g.nodes.length) :
    (add_successor g p nid).nodes.length = g.nodes.length ∧
    (add_successor g p nid).root_nodes = g.root_nodes ∧
    getN (add_successor g p nid).nodes p =
      { getN g.nodes p with
        successors := (getN g.nodes p).successors ++ [nid] } ∧
    getN (add_successor g p nid).nodes nid =
      { getN g.nodes nid with
        initial_predecessor_amount :=
          JobSched.inc32 (getN g.nodes nid).initial_predecessor_amount,
        predecessor_amount :=
          JobSched.inc32 (getN g.nodes nid).initial_predecessor_amount } ∧
    ∀ j, j ≠ p → j ≠ nid → getN (add_successor g p nid).nodes j = getN g.nodes j := by
  refine ⟨by unfold add_successor; simp, rfl, ?_, ?_, ?_⟩
  · unfold add_successor
    rw [getN_set_ne hpn, getN_set_self hp]
  · unfold add_successor
    rw [getN_set_self (by simpa using hn), getN_set_ne (Ne.symm hpn)]
  · intro j hjp hjn
    unfold add_successor
    rw [getN_set_ne hjn, getN_set_ne hjp]

/-- `add_successor` preserves well-formedness when the appended edge goes
strictly up. -/
theorem add_successor_wf {g : Graph} {p nid : Nat} (hwf : WFNodes g.nodes)
    (hp : p < nid) (hn : nid < g.nodes.length) :
    WFNodes (add_successor g p nid).nodes := by
  have hpl : p < g.nodes.length := lt_trans hp hn
  obtain ⟨hlen, _, hgp, hgn, hother⟩ :=
    add_successor_getN (Nat.ne_of_lt hp) hpl hn
  intro i hi s hs
  rw [hlen] at hi ⊢
  by_cases hip : i = p
  · subst hip
    rw [hgp] at hs
    simp only [List.mem_append, List.mem_singleton] at hs
    rcases hs with hs | hs
    · have := hwf i hi s hs
      omega
    · subst hs
      omega
  · by_cases hin : i = nid
    · subst hin
      rw [hgn] at hs
      have := hwf i hi s hs
      omega
    · rw [hother i hip hin] at hs
      have := hwf i hi s hs
      omega

/-- Appending a fresh node preserves well-formedness. -/
theorem wf_append_fresh {ns : List GNode} (hwf : WFNodes ns) :
    WFNodes (ns ++ [freshNode]) := by
  intro i hi s hs
  simp only [List.length_append, List.length_singleton] at hi ⊢
  by_cases hil : i < ns.length
  · rw [getN_append_lt hil] at hs
    have := hwf i hil s hs
    omega
  · have hieq : i = ns.length := by omega
    subst hieq
    rw [getN_append_self] at hs
    simp [freshNode] at hs

/-- Reachability is preserved when a fresh (successor-free) node is appended. -/
theorem reaches_append_fresh {ns : List GNode}
    {a b : Nat} (h : Reaches ns a b) : Reaches (ns ++ [freshNode]) a b := by
  induction h with
  | @direct a b hmem =>
    have ha : a < ns.length := by
      by_contra hc
      rw [getN_oob (le_of_not_lt hc), default_successors] at hmem
      simp at hmem
    exact Reaches.direct (by rw [getN_append_lt ha]; exact hmem)
  | @step a b c hmem hr ih =>
    have ha : a < ns.length := by
      by_contra hc
      rw [getN_oob (le_of_not_lt hc), default_successors] at hmem
      simp at hmem
    exact Reaches.step (by rw [getN_append_lt ha]; exact hmem) ih


end JobGraph

namespace JobGraph

theorem new_node_step_drop {preds : List Nat} {nid : Nat} {acc : Graph} {p : Nat}
    (h : (preds.any fun q => q != p && is_ancestor_of acc acc.nodes.length p q)
      = true) :
    new_node_step preds nid acc p = acc := by
  unfold new_node_step
  rw [h]
  rfl

theorem new_node_step_keep {preds : List Nat} {nid : Nat} {acc : Graph} {p : Nat}
    (h : (preds.any fun q => q != p && is_ancestor_of acc acc.nodes.length p q)
      = false) :
    new_node_step preds nid acc p = add_successor acc p nid := by
  unfold new_node_step
  rw [h]
  rfl

/-- C5: creating a node whose predecessor list `{A, B}` contains a redundant
entry `A` (with `B` reachable from `A`) wires exactly as the list `{B}` does:
the two results are equal, `A`'s successor list is untouched, `B`'s successor
list gains the new node once, and the new node's two predecessor counters are
both 1. -/
theorem redundant_pred_dropped {g : Graph} {A B : Nat} (hwf : WFGraph g)
    (hAB : A ≠ B) (hreach : Reaches g.nodes A B) :
    new_node_preds g [A, B] = new_node_preds g [B] ∧
    (getN (new_node_preds g [A, B]).nodes A).successors =
      (getN g.nodes A).successors ∧
    (getN (new_node_preds g [A, B]).nodes B).successors =
      (getN g.nodes B).successors ++ [g.nodes.length] ∧
    (getN (new_node_preds g [A, B]).nodes
      g.nodes.length).initial_predecessor_amount = 1 ∧
    (getN (new_node_preds g [A, B]).nodes
      g.nodes.length).predecessor_amount = 1 := by
  have hwfn : WFNodes g.nodes := hwf
  have hAltB : A < B := reaches_lt hwfn hreach
  have hBlt : B < g.nodes.length := reaches_ub hwfn hreach
  have hAlt : A < g.nodes.length := lt_trans hAltB hBlt
  have hwf1 : WFNodes (g.nodes ++ [freshNode]) := wf_append_fresh hwfn
  have hreach1 : Reaches (g.nodes ++ [freshNode]) A B :=
    reaches_append_fresh hreach
  have hg1len :
      ({ nodes := g.nodes ++ [freshNode], root_nodes := g.root_nodes } :
        Graph).nodes.length = g.nodes.length + 1 := by
    simp
  have hanc :
      is_ancestor_of
        { nodes := g.nodes ++ [freshNode], root_nodes := g.root_nodes }
        ({ nodes := g.nodes ++ [freshNode], root_nodes := g.root_nodes } :
          Graph).nodes.length A B = true := by
    exact is_ancestor_of_complete
      (g := { nodes := g.nodes ++ [freshNode], root_nodes := g.root_nodes })
      hwf1 hreach1 _ (by simp)
  have hnanc :
      is_ancestor_of
        { nodes := g.nodes ++ [freshNode], root_nodes := g.root_nodes }
        ({ nodes := g.nodes ++ [freshNode], root_nodes := g.root_nodes } :
          Graph).nodes.length B A = false := by
    rcases Bool.eq_false_or_eq_true (is_ancestor_of
        { nodes := g.nodes ++ [freshNode], root_nodes := g.root_nodes }
        ({ nodes := g.nodes ++ [freshNode], root_nodes := g.root_nodes } :
          Graph).nodes.length B A) with hb | hb
    · have hco := reaches_lt hwf1 (is_ancestor_of_sound
        (g := { nodes := g.nodes ++ [freshNode], root_nodes := g.root_nodes }) hb)
      omega
    · exact hb
  have hBA : (B != A) = true := by
    simp only [bne_iff_ne, ne_eq]
    omega
  have hAB2 : (A != B) = true := by
    simp only [bne_iff_ne, ne_eq]
    exact hAB
  have hdropA :
      (([A, B]).any fun q => q != A &&
        is_ancestor_of
          { nodes := g.nodes ++ [freshNode], root_nodes := g.root_nodes }
          ({ nodes := g.nodes ++ [freshNode], root_nodes := g.root_nodes } :
            Graph).nodes.length A q) = true := by
    simp only [List.any_cons, List.any_nil, bne_self_eq_false, Bool.false_and,
      Bool.false_or, Bool.or_false, hBA, Bool.true_and]
    exact hanc
  have hkeepB :
      (([A, B]).any fun q => q != B &&
        is_ancestor_of
          { nodes := g.nodes ++ [freshNode], root_nodes := g.root_nodes }
          ({ nodes := g.nodes ++ [freshNode], root_nodes := g.root_nodes } :
            Graph).nodes.length B q) = false := by
    simp only [List.any_cons, List.any_nil, bne_self_eq_false, Bool.false_and,
      Bool.or_false, hAB2, Bool.true_and]
    exact hnanc
  have hkeepB1 :
      (([B]).any fun q => q != B &&
        is_ancestor_of
          { nodes := g.nodes ++ [freshNode], root_nodes := g.root_nodes }
          ({ nodes := g.nodes ++ [freshNode], root_nodes := g.root_nodes } :
            Graph).nodes.length B q) = false := by
    simp only [List.any_cons, List.any_nil, bne_self_eq_false, Bool.false_and,
      Bool.or_false]
  have hfold2 : new_node_preds g [A, B] =
      add_successor
        { nodes := g.nodes ++ [freshNode], root_nodes := g.root_nodes }
        B g.nodes.length := by
    unfold new_node_preds
    rw [List.foldl_cons, new_node_step_drop hdropA, List.foldl_cons,
      new_node_step_keep hkeepB, List.foldl_nil]
  have hfold1 : new_node_preds g [B] =
      add_successor
        { nodes := g.nodes ++ [freshNode], root_nodes := g.root_nodes }
        B g.nodes.length := by
    unfold new_node_preds
    rw [List.foldl_cons, new_node_step_keep hkeepB1, List.foldl_nil]
  obtain ⟨hlen1, hroot1, hgB, hgnid, hother⟩ :=
    @add_successor_getN
      { nodes := g.nodes ++ [freshNode], root_nodes := g.root_nodes }
      B g.nodes.length
      (by omega) (by simp; omega) (by simp)
  refine ⟨hfold2.trans hfold1.symm, ?_, ?_, ?_, ?_⟩
  · rw [hfold2, hother A (by omega) (by omega),
      @getN_append_lt g.nodes [freshNode] A hAlt]
  · rw [hfold2, hgB, @getN_append_lt g.nodes [freshNode] B hBlt]
  · rw [hfold2, hgnid, getN_append_self]
    norm_num [freshNode, JobSched.inc32, JobSched.u32]
  · rw [hfold2, hgnid, getN_append_self]
    norm_num [freshNode, JobSched.inc32, JobSched.u32]

/-- Concrete two-node graph (an edge from node 0 to node 1) for witnesses. -/
def gEx : Graph :=
  { nodes :=
      [{ initial_predecessor_amount := 0, predecessor_amount := 0,
         unfinished_amount := 1, successors := [1] },
       { initial_predecessor_amount := 1, predecessor_amount := 1,
         unfinished_amount := 1, successors := [] }],
    root_nodes := [0] }

/-- Witness for `redundant_pred_dropped` on the concrete graph `gEx`. -/
theorem redundant_pred_dropped_witness :
    WFGraph gEx ∧ (0 : Nat) ≠ 1 ∧ Reaches gEx.nodes 0 1 ∧
    new_node_preds gEx [0, 1] = new_node_preds gEx [1] :=
  ⟨by decide, by decide, Reaches.direct (by decide),
    (redundant_pred_dropped (by decide) (by decide)
      (Reaches.direct (by decide))).1⟩

end JobGraph

namespace JobGraph

theorem new_node_step_len_root (preds : List Nat) (nid : Nat) (acc : Graph)
    (p : Nat) :
    (new_node_step preds nid acc p).nodes.length = acc.nodes.length ∧
    (new_node_step preds nid acc p).root_nodes = acc.root_nodes := by
  unfold new_node_step
  dsimp only
  split
  · exact ⟨rfl, rfl⟩
  · unfold add_successor
    simp

theorem foldl_step_len_root (preds : List Nat) (nid : Nat) :
    ∀ (l : List Nat) (acc : Graph),
      ((l.foldl (new_node_step preds nid) acc).nodes.length =
        acc.nodes.length) ∧
      ((l.foldl (new_node_step preds nid) acc).root_nodes = acc.root_nodes) := by
  intro l
  induction l with
  | nil => intro acc; exact ⟨rfl, rfl⟩
  | cons a t ih =>
    intro acc
    rw [List.foldl_cons]
    obtain ⟨h1, h2⟩ := ih (new_node_step preds nid acc a)
    obtain ⟨h3, h4⟩ := new_node_step_len_root preds nid acc a
    exact ⟨h1.trans h3, h2.trans h4⟩

theorem new_node_preds_len (g : Graph) (ps : List Nat) :
    (new_node_preds g ps).nodes.length = g.nodes.length + 1 := by
  unfold new_node_preds
  rw [(foldl_step_len_root ps g.nodes.length ps _).1]
  simp

theorem new_node_preds_root (g : Graph) (ps : List Nat) :
    (new_node_preds g ps).root_nodes = g.root_nodes := by
  unfold new_node_preds
  rw [(foldl_step_len_root ps g.nodes.length ps _).2]

theorem buildStep_len (g : Graph) (s : NodeSpec) :
    (buildStep g s).nodes.length = g.nodes.length + 1 := by
  cases s with
  | root => simp [buildStep, new_node_root]
  | withPreds ps => exact new_node_preds_len g ps

theorem buildGraph_append (specs : List NodeSpec) (s : NodeSpec) :
    buildGraph (specs ++ [s]) = buildStep (buildGraph specs) s := by
  unfold buildGraph
  rw [List.foldl_append]
  rfl

theorem buildGraph_len (specs : List NodeSpec) :
    (buildGraph specs).nodes.length = specs.length := by
  induction specs using List.reverseRecOn with
  | nil => rfl
  | append_singleton t s ih =>
    rw [buildGraph_append, buildStep_len, ih]
    simp

theorem specGetD_append_self (specs : List NodeSpec) (s d : NodeSpec) :
    (specs ++ [s]).getD specs.length d = s := by
  simp [List.getD_eq_getElem?_getD]

theorem specGetD_append_lt (specs : List NodeSpec) (s d : NodeSpec) (k : Nat)
    (h : k < specs.length) : (specs ++ [s]).getD k d = specs.getD k d := by
  simp [List.getD_eq_getElem?_getD, List.getElem?_append, h]

theorem rootFormIds_append (specs : List NodeSpec) (s : NodeSpec) :
    rootFormIds (specs ++ [s]) =
      rootFormIds specs ++ (if isRootSpec s then [specs.length] else []) := by
  unfold rootFormIds
  rw [List.length_append, List.length_singleton, List.range_succ,
    List.filter_append]
  congr 1
  · apply List.filter_congr
    intro k hk
    rw [List.mem_range] at hk
    rw [specGetD_append_lt _ _ _ _ hk]
  · rw [List.filter_singleton, specGetD_append_self, Bool.cond_eq_ite]

theorem buildGraph_root (specs : List NodeSpec) :
    (buildGraph specs).root_nodes = rootFormIds specs := by
  induction specs using List.reverseRecOn with
  | nil => rfl
  | append_singleton t s ih =>
    rw [buildGraph_append, rootFormIds_append]
    cases s with
    | root =>
      simp only [buildStep, new_node_root, isRootSpec, if_pos]
      rw [ih, buildGraph_len]
    | withPreds ps =>
      simp only [buildStep, isRootSpec, if_neg, new_node_preds_root]
      rw [ih]
      simp

/-- C8: `JobGraph::get_root_job(i)` returns (a pointer to the root job of)
the `i`-th node created with the no-predecessor `new_node` form, in creation
order, when `i` is in range, and null otherwise. -/
theorem get_root_job_spec (specs : List NodeSpec) (i : Nat) :
    (i < (rootFormIds specs).length →
      get_root_job (buildGraph specs) i = some ((rootFormIds specs).getD i 0)) ∧
    ((rootFormIds specs).length ≤ i →
      get_root_job (buildGraph specs) i = none) := by
  unfold get_root_job
  rw [buildGraph_root]
  constructor
  · intro h
    rw [if_neg (not_le.mpr h)]
  · intro h
    rw [if_pos h]

/-- Concrete construction sequence for witnesses: nodes 0 and 2 are root-form,
node 1 depends on node 0. -/
def specsEx : List NodeSpec := [.root, .withPreds [0], .root]

/-- Witness for `get_root_job_spec`: on `specsEx` index 1 returns the second
root-form node (node 2) and index 5 is out of range. -/
theorem get_root_job_spec_witness :
    (1 < (rootFormIds specsEx).length ∧
      get_root_job (buildGraph specsEx) 1 =
        some ((rootFormIds specsEx).getD 1 0)) ∧
    ((rootFormIds specsEx).length ≤ 5 ∧
      get_root_job (buildGraph specsEx) 5 = none) :=
  ⟨⟨by decide, (get_root_job_spec specsEx 1).1 (by decide)⟩,
    ⟨by decide, (get_root_job_spec specsEx 5).2 (by decide)⟩⟩

end JobGraph

namespace JobChunkAllocator

/-- State of a `JobChunkAllocator`: the fixed chunk count (`chunks.size()`)
and the atomic `next_index` (`uint32_t`).  A returned chunk pointer
`chunks.data() + index` is identified with `index`. -/
structure AState where
  chunk_amount : Nat
  next_index : Nat

/-- Embedding of `JobChunkAllocator::allocate`: one `fetch_add(1)` on
`next_index`, then null when the fetched index is past the chunk vector. -/
def allocate (s : AState) : Option Nat × AState :=
  let index := s.next_index
  let s2 : AState := { s with next_index := JobSched.inc32 s.next_index }
  if s.chunk_amount ≤ index then (none, s2) else (some index, s2)

/-- Embedding of `JobChunkAllocator::reset`. -/
def reset (s : AState) : AState := { s with next_index := 0 }

/-- State after `n` consecutive `allocate` calls. -/
def allocIter (s : AState) : Nat → AState
  | 0 => s
  | n + 1 => (allocate (allocIter s n)).2

theorem allocIter_chunk_amount (s : AState) (n : Nat) :
    (allocIter s n).chunk_amount = s.chunk_amount := by
  induction n with
  | zero => rfl
  | succ n ih =>
    unfold allocIter allocate
    dsimp only
    split <;> simpa using ih

theorem allocIter_next (s : AState) (h0 : s.next_index = 0) :
    ∀ n, n < JobSched.u32 → (allocIter s n).next_index = n := by
  intro n
  induction n with
  | zero => intro _; exact h0
  | succ n ih =>
    intro hn
    have hn' : n < JobSched.u32 := by omega
    unfold allocIter allocate
    dsimp only
    split <;>
      simp [JobSched.inc32, ih hn', Nat.mod_eq_of_lt (show n + 1 < JobSched.u32 from hn)]

/-- C7: starting from construction or the most recent `reset`
(`next_index = 0`), each `allocate` performs one `fetch_add` (so after `n`
calls `next_index = n`), the `n`-th call returns the `n`-th distinct chunk
(index `n - 1`) when `n ≤ chunk_amount` and null when `n > chunk_amount`, and
`reset` stores zero so allocation restarts at the first chunk. -/
theorem allocate_nth (s : AState) (n : Nat) (h0 : s.next_index = 0)
    (h1 : 1 ≤ n) (h2 : n < JobSched.u32) :
    ((allocIter s n).next_index = n ∧
      (n ≤ s.chunk_amount →
        (allocate (allocIter s (n - 1))).1 = some (n - 1)) ∧
      (s.chunk_amount < n → (allocate (allocIter s (n - 1))).1 = none)) ∧
    (∀ s2 : AState, (reset s2).next_index = 0 ∧
      (0 < s2.chunk_amount → (allocate (reset s2)).1 = some 0)) := by
  have hnext : (allocIter s (n - 1)).next_index = n - 1 :=
    allocIter_next s h0 (n - 1) (by omega)
  have hchunk := allocIter_chunk_amount s (n - 1)
  constructor
  · refine ⟨allocIter_next s h0 n h2, ?_, ?_⟩
    · intro hle
      unfold allocate
      rw [if_neg (by omega)]
      simp [hnext]
    · intro hgt
      unfold allocate
      rw [if_pos (by omega)]
  · intro s2
    refine ⟨rfl, ?_⟩
    intro hpos
    unfold allocate reset
    dsimp only
    rw [if_neg (by omega)]

/-- Witness for `allocate_nth`: two chunks, third call since reset is null,
second call returns the second chunk. -/
theorem allocate_nth_witness :
    (({ chunk_amount := 2, next_index := 0 } : AState).next_index = 0 ∧
      (1 : Nat) ≤ 3 ∧ (3 : Nat) < JobSched.u32) ∧
    ((2 : Nat) < 3 →
      (allocate (allocIter { chunk_amount := 2, next_index := 0 } (3 - 1))).1 =
        none) ∧
    ((2 : Nat) ≤ 2 →
      (allocate (allocIter { chunk_amount := 2, next_index := 0 } (2 - 1))).1 =
        some (2 - 1)) :=
  ⟨⟨rfl, by omega, by norm_num [JobSched.u32]⟩,
    (allocate_nth { chunk_amount := 2, next_index := 0 } 3 rfl (by omega)
      (by norm_num [JobSched.u32])).1.2.2,
    (allocate_nth { chunk_amount := 2, next_index := 0 } 2 rfl (by omega)
      (by norm_num [JobSched.u32])).1.2.1⟩

end JobChunkAllocator

namespace Scheduler

/-- Lower bound of the per-worker `uniform_int_distribution` built in the
`Worker` constructor: `1u + index` in `uint32_t` arithmetic. -/
def steal_distribution_lo (index : Nat) : Nat := (1 + index) % JobSched.u32

/-- Upper bound of the per-worker `uniform_int_distribution`:
`std::max(worker_amount - 1u, 1u) + index` in `uint32_t` arithmetic
(`worker_amount ≥ 1` always holds, the constructor clamps it). -/
def steal_distribution_hi (worker_amount index : Nat) : Nat :=
  (max (worker_amount - 1) 1 + index) % JobSched.u32

/-- Victim selection in `Scheduler::work_loop`: the drawn value reduced
modulo the worker count. -/
def victim_index (draw worker_amount : Nat) : Nat := draw % worker_amount

/-- C10: for a worker `i` of `W` workers, any value `d` the distribution can
produce (`lo ≤ d ≤ hi`) yields a victim different from `i` when `W > 1`, and
always yields worker 0 (the worker itself) when `W = 1`. -/
theorem victim_not_self (W i d : Nat) (hW : 1 ≤ W) (hi : i < W)
    (hof : max (W - 1) 1 + i < JobSched.u32)
    (hlo : steal_distribution_lo i ≤ d)
    (hhi : d ≤ steal_distribution_hi W i) :
    (1 < W → victim_index d W ≠ i) ∧ (W = 1 → victim_index d W = 0) := by
  unfold steal_distribution_lo at hlo
  unfold steal_distribution_hi at hhi
  rw [Nat.mod_eq_of_lt (show 1 + i < JobSched.u32 by omega)] at hlo
  rw [Nat.mod_eq_of_lt hof] at hhi
  constructor
  · intro hW1 hvic
    unfold victim_index at hvic
    have hmax : max (W - 1) 1 = W - 1 := by omega
    rw [hmax] at hhi
    have hdm := Nat.div_add_mod d W
    rw [hvic] at hdm
    rcases Nat.eq_zero_or_pos (d / W) with hq | hq
    · rw [hq, Nat.mul_zero] at hdm
      omega
    · have : W * 1 ≤ W * (d / W) := Nat.mul_le_mul_left W hq
      omega
  · intro hW1
    unfold victim_index
    rw [hW1]
    exact Nat.mod_one d

/-- Witness for `victim_not_self` with two workers: worker 0 draws 1 and must
not pick itself. -/
theorem victim_not_self_witness :
    ((1 : Nat) ≤ 2 ∧ (0 : Nat) < 2 ∧
      max (2 - 1) 1 + 0 < JobSched.u32 ∧
      steal_distribution_lo 0 ≤ 1 ∧
      (1 : Nat) ≤ steal_distribution_hi 2 0) ∧
    ((1 : Nat) < 2 → victim_index 1 2 ≠ 0) :=
  ⟨⟨by omega, by omega, by norm_num [JobSched.u32],
    by norm_num [steal_distribution_lo, JobSched.u32],
    by norm_num [steal_distribution_hi, JobSched.u32]⟩,
    (victim_not_self 2 0 1 (by omega) (by omega)
      (by norm_num [JobSched.u32])
      (by norm_num [steal_distribution_lo, JobSched.u32])
      (by norm_num [steal_distribution_hi, JobSched.u32])).1⟩

end Scheduler

namespace Scheduler

/-- Program points of one worker inside `Scheduler::work_loop`, one per
region between two atomic accesses of `stealer_amount` / `active_amount`. -/
inductive PC where
  | popLoop
  | enterSteal
  | stealLoop
  | afterSteal
  | runStolen
  | termCheck
  | termSub
  | storeSentinel
  | waitPhase
  | waitLoad
  | resumeInc
  | done
  deriving DecidableEq

/-- Configuration of one worker: its program point and the two shared
`uint32_t` counters of the termination protocol. -/
structure WLState where
  pc : PC
  stealer : Nat
  active : Nat
  deriving DecidableEq

/-- Label of a step: which atomic operation (or local control transfer) the
worker performs.  Loaded values are recorded on the load labels. -/
inductive WLAction where
  | popSome
  | popNone
  | fetchAddStealer
  | stealSuccess
  | fetchSubStealer
  | runJob
  | stealFail
  | loadStealerCheck (v : Nat)
  | fetchSubActive
  | storeStealer (v : Nat)
  | waitReturn
  | loadStealerFinal (v : Nat)
  | fetchAddActive
  deriving DecidableEq

/-- One-worker step relation of `Scheduler::work_loop` for a scheduler with
`W` workers, transcribed from the loop body: drain the own queue
(`popLoop`), enter the stealing phase (`fetch_add` on `stealer_amount`),
attempt steals, and on failed steals with `stealer_amount >= W` run the
termination subprotocol on `active_amount`, parking on `stealer_amount` and
either returning (when the loaded value exceeds `W`) or re-activating.
`notify_all` calls do not change this state and are part of the
`fetchSubStealer` / `storeStealer` steps. -/
inductive Step (W : Nat) : WLState → WLAction → WLState → Prop where
  | popSome {s : WLState} : s.pc = .popLoop → Step W s .popSome s
  | popNone {s : WLState} : s.pc = .popLoop →
      Step W s .popNone { s with pc := .enterSteal }
  | fetchAddStealer {s : WLState} : s.pc = .enterSteal →
      Step W s .fetchAddStealer
        { s with pc := .stealLoop, stealer := JobSched.inc32 s.stealer }
  | stealSuccess {s : WLState} : s.pc = .stealLoop →
      Step W s .stealSuccess { s with pc := .afterSteal }
  | fetchSubStealer {s : WLState} : s.pc = .afterSteal →
      Step W s .fetchSubStealer
        { s with pc := .runStolen, stealer := JobSched.dec32 s.stealer }
  | runStolenJob {s : WLState} : s.pc = .runStolen →
      Step W s .runJob { s with pc := .popLoop }
  | stealFail {s : WLState} : s.pc = .stealLoop →
      Step W s .stealFail { s with pc := .termCheck }
  | termCheckHigh {s : WLState} : s.pc = .termCheck → W ≤ s.stealer →
      Step W s (.loadStealerCheck s.stealer) { s with pc := .termSub }
  | termCheckLow {s : WLState} : s.pc = .termCheck → s.stealer < W →
      Step W s (.loadStealerCheck s.stealer) { s with pc := .stealLoop }
  | fetchSubActive {s : WLState} : s.pc = .termSub →
      Step W s .fetchSubActive
        { s with
          pc := if s.active = 1 then .storeSentinel else .waitPhase,
          active := JobSched.dec32 s.active }
  | storeSentinel {s : WLState} : s.pc = .storeSentinel →
      Step W s (.storeStealer (W + 1))
        { s with pc := .waitPhase, stealer := W + 1 }
  | waitReturn {s : WLState} : s.pc = .waitPhase → s.stealer ≠ W →
      Step W s .waitReturn { s with pc := .waitLoad }
  | loadFinalHigh {s : WLState} : s.pc = .waitLoad → W < s.stealer →
      Step W s (.loadStealerFinal s.stealer) { s with pc := .done }
  | loadFinalLow {s : WLState} : s.pc = .waitLoad → s.stealer ≤ W →
      Step W s (.loadStealerFinal s.stealer) { s with pc := .resumeInc }
  | fetchAddActive {s : WLState} : s.pc = .resumeInc →
      Step W s .fetchAddActive
        { s with pc := .stealLoop, active := JobSched.inc32 s.active }

/-- C6: in the `work_loop` step relation, (1) the only step that reaches the
returned state `done` is the final load of `stealer_amount` observing a value
strictly greater than the worker count; (2) the only store into
`stealer_amount` is of the sentinel `W + 1` and it is performed from
`storeSentinel`, a point reached only by the worker whose
`active_amount.fetch_sub` observed the old value 1; (3) a worker that wakes
to `stealer_amount ≤ W` moves to `resumeInc` and from there increments
`active_amount` and resumes stealing. -/
theorem work_loop_termination (W : Nat) (s : WLState) (a : WLAction)
    (t : WLState) (hstep : Step W s a t) :
    (t.pc = .done → s.pc = .waitLoad ∧ W < s.stealer ∧
      a = .loadStealerFinal s.stealer) ∧
    (∀ v, a = .storeStealer v → v = W + 1 ∧ s.pc = .storeSentinel) ∧
    (t.pc = .storeSentinel → s.pc = .termSub ∧ s.active = 1) ∧
    (s.pc = .waitLoad → s.stealer ≤ W → t = { s with pc := .resumeInc }) ∧
    (s.pc = .resumeInc →
      t = { s with pc := .stealLoop, active := JobSched.inc32 s.active }) := by
  cases hstep with
  | popSome h => refine ⟨?_, ?_, ?_, ?_, ?_⟩ <;> simp_all
  | popNone h => refine ⟨?_, ?_, ?_, ?_, ?_⟩ <;> simp_all
  | fetchAddStealer h => refine ⟨?_, ?_, ?_, ?_, ?_⟩ <;> simp_all
  | stealSuccess h => refine ⟨?_, ?_, ?_, ?_, ?_⟩ <;> simp_all
  | fetchSubStealer h => refine ⟨?_, ?_, ?_, ?_, ?_⟩ <;> simp_all
  | runStolenJob h => refine ⟨?_, ?_, ?_, ?_, ?_⟩ <;> simp_all
  | stealFail h => refine ⟨?_, ?_, ?_, ?_, ?_⟩ <;> simp_all
  | termCheckHigh h h2 => refine ⟨?_, ?_, ?_, ?_, ?_⟩ <;> simp_all
  | termCheckLow h h2 => refine ⟨?_, ?_, ?_, ?_, ?_⟩ <;> simp_all
  | fetchSubActive h =>
    by_cases hact : s.active = 1 <;>
      refine ⟨?_, ?_, ?_, ?_, ?_⟩ <;> simp_all
  | storeSentinel h => refine ⟨?_, ?_, ?_, ?_, ?_⟩ <;> simp_all
  | waitReturn h h2 => refine ⟨?_, ?_, ?_, ?_, ?_⟩ <;> simp_all
  | loadFinalHigh h h2 => refine ⟨?_, ?_, ?_, ?_, ?_⟩ <;> simp_all
  | loadFinalLow h h2 => refine ⟨?_, ?_, ?_, ?_, ?_⟩ <;> simp_all
  | fetchAddActive h => refine ⟨?_, ?_, ?_, ?_, ?_⟩ <;> simp_all

/-- Witness for `work_loop_termination`: the re-activation step of a worker
that woke to a low `stealer_amount`, in a two-worker scheduler. -/
theorem work_loop_termination_witness :
    ({ pc := .resumeInc, stealer := 1, active := 0 } : WLState).pc =
      .resumeInc ∧
    ({ pc := .stealLoop, stealer := 1, active := 1 } : WLState) =
      { pc := .stealLoop, stealer := 1,
        active := JobSched.inc32
          ({ pc := .resumeInc, stealer := 1, active := 0 } : WLState).active } :=
  ⟨rfl,
    ((work_loop_termination 2
        { pc := .resumeInc, stealer := 1, active := 0 } .fetchAddActive
        { pc := .stealLoop, stealer := 1,
          active := JobSched.inc32 0 }
        (Step.fetchAddActive rfl)).2.2.2.2 rfl).symm ▸ rfl⟩

end Scheduler

namespace JobSpawner

open JobGraph

/-- Embedding of `JobGraphNode::job_added` on the node list: `fetch_add(1)`
on the node's `unfinished_amount`. -/
def job_added (ns : List GNode) (n : Nat) : List GNode :=
  ns.set n { getN ns n with
    unfinished_amount := JobSched.inc32 (getN ns n).unfinished_amount }

/-- One job record as written by `JobSpawner::spawn_impl`: the function
pointer and the parameter bytes are opaque numbers, `node` is the graph-node
back-pointer. -/
structure JobRec where
  function : Nat
  params : Nat
  node : Option Nat
  deriving DecidableEq

/-- Embedding of `JobSpawner::spawn_impl`.  `bound` is the spawner's bound
node (null for a job outside the dependency graph); `ns` is the graph's node
list and `q` the current worker's queue.  Allocation of the record itself is
modelled by the returned record value (the code asserts the allocation
succeeded; the allocator is modelled separately).  When `is_sub_job` is true
the code runs `job->node = node; node->job_added();` without a null check, so
a null `bound` dereferences null — undefined behaviour, modelled as `none`.
Otherwise the record, the updated node list and the queue after the final
`push` are returned. -/
def spawn_impl (bound : Option Nat) (fn pr : Nat) (is_sub_job : Bool)
    (ns : List GNode) (q : JobQueue.QState JobRec) :
    Option (JobRec × List GNode × JobQueue.QState JobRec) :=
  if is_sub_job then
    match bound with
    | some n =>
      let job : JobRec := { function := fn, params := pr, node := some n }
      some (job, job_added ns n, (JobQueue.push q job).2)
    | none => none
  else
    let job : JobRec := { function := fn, params := pr, node := none }
    some (job, ns, (JobQueue.push q job).2)

/-- Example empty queue of job records for witnesses. -/
def qRecEmpty : JobQueue.QState JobRec :=
  { ring := fun _ => none, top := 0, bottom := 0 }

/-- C1 counterexample: spawning with `is_sub_job = true` from a spawner whose
bound node is null does not complete with a null back-pointer and unchanged
counters, as the claim states — the code dereferences the null node pointer
(`node->job_added()`), modelled as a faulting result. -/
theorem spawn_null_node_faults :
    spawn_impl none 0 0 true [] qRecEmpty = none := rfl

/-- C1 amended: the back-pointer is set and the bound node's
`unfinished_amount` incremented by exactly one precisely when `is_sub_job` is
true and the bound node is non-null; when `is_sub_job` is false the
back-pointer is left null and no node changes; when `is_sub_job` is true with
a null bound node the call dereferences null (undefined behaviour, a faulting
result in the embedding).  The last conjunct spells out that `job_added`
changes exactly the bound node, incrementing `unfinished_amount` by one. -/
theorem spawn_impl_cases (bound : Option Nat) (fn pr : Nat) (sub : Bool)
    (ns : List GNode) (q : JobQueue.QState JobRec) :
    (∀ n, bound = some n → sub = true →
      spawn_impl bound fn pr sub ns q =
        some ({ function := fn, params := pr, node := some n },
          job_added ns n,
          (JobQueue.push q
            { function := fn, params := pr, node := some n }).2)) ∧
    (sub = true → bound = none → spawn_impl bound fn pr sub ns q = none) ∧
    (sub = false →
      spawn_impl bound fn pr sub ns q =
        some ({ function := fn, params := pr, node := none }, ns,
          (JobQueue.push q
            { function := fn, params := pr, node := none }).2)) ∧
    (∀ n, n < ns.length →
      getN (job_added ns n) n =
        { getN ns n with
          unfinished_amount :=
            JobSched.inc32 (getN ns n).unfinished_amount } ∧
      ∀ j, j ≠ n → getN (job_added ns n) j = getN ns j) := by
  refine ⟨?_, ?_, ?_, ?_⟩
  · intro n hb hsub
    subst hb
    subst hsub
    rfl
  · intro hsub hb
    subst hsub
    subst hb
    rfl
  · intro hsub
    subst hsub
    rfl
  · intro n hn
    exact ⟨getN_set_self hn, fun j hj => getN_set_ne hj⟩

/-- Witness for `spawn_impl_cases`: spawning a sub-job bound to node 0 of a
one-node graph. -/
theorem spawn_impl_cases_witness :
    spawn_impl (some 0) 3 4 true [freshNode] qRecEmpty =
      some ({ function := 3, params := 4, node := some 0 },
        job_added [freshNode] 0,
        (JobQueue.push qRecEmpty
          { function := 3, params := 4, node := some 0 }).2) ∧
    (0 : Nat) < 1 ∧
    getN (job_added [freshNode] 0) 0 =
      { getN [freshNode] 0 with
        unfinished_amount :=
          JobSched.inc32 (getN [freshNode] 0).unfinished_amount } :=
  ⟨(spawn_impl_cases (some 0) 3 4 true [freshNode] qRecEmpty).1 0 rfl rfl,
    by decide,
    ((spawn_impl_cases (some 0) 3 4 true [freshNode]
      qRecEmpty).2.2.2 0 (by decide)).1⟩

end JobSpawner

namespace JobGraphNode

open JobGraph

/-- State seen by `JobGraphNode::job_completed`: the graph's node list and
the calling worker's queue.  The root job of node `m` pushed by the firing
loop (`&successor->root_job`) is identified with `m`. -/
structure RunState where
  nodes : List GNode
  queue : JobQueue.QState Nat

/-- One iteration of the successor-firing loop of
`JobGraphNode::job_completed`: `fetch_sub(1)` on the successor's
`predecessor_amount` and, when the old value was 1, push its root job onto
the calling worker's queue. -/
def fireOne (st : RunState) (m : Nat) : RunState :=
  let node := getN st.nodes m
  let oldp := node.predecessor_amount
  let st1 : RunState := { st with
    nodes := st.nodes.set m
      { node with predecessor_amount := JobSched.dec32 oldp } }
  if oldp = 1 then { st1 with queue := (JobQueue.push st1.queue m).2 } else st1

/-- Embedding of `JobGraphNode::job_completed` for the node `self`:
`fetch_sub(1)` on `unfinished_amount`; an old value above 1 returns early;
otherwise fire all successors in list order, then store 1 to
`unfinished_amount` and `initial_predecessor_amount` to
`predecessor_amount`. -/
def job_completed (self : Nat) (st : RunState) : RunState :=
  let node := getN st.nodes self
  let oldu := node.unfinished_amount
  let st1 : RunState := { st with
    nodes := st.nodes.set self
      { node with unfinished_amount := JobSched.dec32 oldu } }
  if 1 < oldu then st1
  else
    let st2 := node.successors.foldl fireOne st1
    let node2 := getN st2.nodes self
    let node3 : GNode := { node2 with unfinished_amount := 1, predecessor_amount := node2.initial_predecessor_amount }
    { st2 with nodes := st2.nodes.set self node3 }

/-- Pushing a list of jobs in order. -/
def pushList (l : List Nat) (q : JobQueue.QState Nat) : JobQueue.QState Nat :=
  l.foldl (fun q2 j => (JobQueue.push q2 j).2) q

theorem fireOne_nodes (st : RunState) (m : Nat) :
    (fireOne st m).nodes = st.nodes.set m
      { getN st.nodes m with
        predecessor_amount :=
          JobSched.dec32 (getN st.nodes m).predecessor_amount } := by
  unfold fireOne
  dsimp only
  split <;> rfl

theorem fireOne_queue (st : RunState) (m : Nat) :
    (fireOne st m).queue =
      if (getN st.nodes m).predecessor_amount = 1
      then (JobQueue.push st.queue m).2 else st.queue := by
  unfold fireOne
  dsimp only
  split
  · rfl
  · rfl

theorem fireOne_len (st : RunState) (m : Nat) :
    (fireOne st m).nodes.length = st.nodes.length := by
  rw [fireOne_nodes]
  simp

theorem fireOne_getN_ne (st : RunState) {m j : Nat} (h : j ≠ m) :
    getN (fireOne st m).nodes j = getN st.nodes j := by
  rw [fireOne_nodes]
  exact getN_set_ne h

theorem fireFold_len (l : List Nat) (st : RunState) :
    (l.foldl fireOne st).nodes.length = st.nodes.length := by
  induction l generalizing st with
  | nil => rfl
  | cons a t ih =>
    rw [List.foldl_cons, ih, fireOne_len]

theorem fireFold_getN_notmem (l : List Nat) (st : RunState) {j : Nat}
    (h : j ∉ l) : getN (l.foldl fireOne st).nodes j = getN st.nodes j := by
  induction l generalizing st with
  | nil => rfl
  | cons a t ih =>
    rw [List.foldl_cons]
    rw [List.mem_cons] at h
    push_neg at h
    rw [ih _ h.2, fireOne_getN_ne st h.1]

theorem fireFold_getN_mem (l : List Nat) (st : RunState) {j : Nat}
    (hnd : l.Nodup) (hv : ∀ m ∈ l, m < st.nodes.length) (hj : j ∈ l) :
    getN (l.foldl fireOne st).nodes j =
      { getN st.nodes j with
        predecessor_amount :=
          JobSched.dec32 (getN st.nodes j).predecessor_amount } := by
  induction l generalizing st with
  | nil => simp at hj
  | cons a t ih =>
    rw [List.foldl_cons]
    rw [List.nodup_cons] at hnd
    rw [List.mem_cons] at hj
    rcases hj with hj | hj
    · subst hj
      rw [fireFold_getN_notmem t _ hnd.1, fireOne_nodes,
        getN_set_self (hv j (List.mem_cons_self j t))]
    · have hja : j ≠ a := by
        intro he
        subst he
        exact hnd.1 hj
      rw [ih _ hnd.2 ?_ hj, fireOne_getN_ne st hja]
      intro m hm
      rw [fireOne_len]
      exact hv m (List.mem_cons_of_mem a hm)

theorem fireFold_queue (l : List Nat) (st : RunState)
    (hnd : l.Nodup) (hv : ∀ m ∈ l, m < st.nodes.length) :
    (l.foldl fireOne st).queue =
      pushList
        (l.filter fun m => (getN st.nodes m).predecessor_amount == 1)
        st.queue := by
  induction l generalizing st with
  | nil => rfl
  | cons a t ih =>
    rw [List.foldl_cons, List.filter_cons]
    rw [List.nodup_cons] at hnd
    have hfa : (t.filter fun m =>
        (getN (fireOne st a).nodes m).predecessor_amount == 1) =
        (t.filter fun m => (getN st.nodes m).predecessor_amount == 1) := by
      apply List.filter_congr
      intro m hm
      have hma : m ≠ a := by
        intro he
        subst he
        exact hnd.1 hm
      rw [fireOne_getN_ne st hma]
    have hrec := ih (fireOne st a) hnd.2 ?_
    · rw [hrec, hfa, fireOne_queue]
      by_cases hp : (getN st.nodes a).predecessor_amount = 1
      · rw [if_pos hp, if_pos (by simpa using hp)]
        rfl
      · rw [if_neg hp, if_neg (by simpa using hp)]
    · intro m hm
      rw [fireOne_len]
      exact hv m (List.mem_cons_of_mem a hm)

theorem push_not_full_counters {α : Type} (q : JobQueue.QState α) (j : α)
    (h : q.bottom - q.top ≠ JobQueue.queue_capacity) :
    (JobQueue.push q j).2.top = q.top ∧
    (JobQueue.push q j).2.bottom = q.bottom + 1 := by
  unfold JobQueue.push
  rw [if_neg h]
  exact ⟨rfl, rfl⟩

theorem pushList_counters (l : List Nat) (q : JobQueue.QState Nat)
    (h0 : 0 ≤ q.bottom - q.top)
    (hlen : q.bottom - q.top + l.length ≤ 4096) :
    (pushList l q).top = q.top ∧
    (pushList l q).bottom = q.bottom + l.length := by
  induction l generalizing q with
  | nil => simp [pushList]
  | cons a t ih =>
    have hnf : q.bottom - q.top ≠ JobQueue.queue_capacity := by
      unfold JobQueue.queue_capacity
      simp only [List.length_cons] at hlen
      omega
    obtain ⟨ht, hb⟩ := push_not_full_counters q a hnf
    have hrec := ih (JobQueue.push q a).2 ?_ ?_
    · unfold pushList at hrec ⊢
      rw [List.foldl_cons]
      refine ⟨hrec.1.trans ht, ?_⟩
      rw [hrec.2, hb]
      simp only [List.length_cons]
      push_cast
      ring
    · omega
    · simp only [List.length_cons] at hlen
      omega

end JobGraphNode

namespace JobGraphNode

open JobGraph

/-- C4: `JobGraphNode::job_completed` decrements `unfinished_amount` by one;
when the pre-decrement value exceeds 1 nothing else changes (first conjunct:
the whole resulting state is characterised); when it equals 1, each
successor's `predecessor_amount` drops by one, the root jobs of exactly those
successors whose pre-decrement predecessor value was 1 are pushed onto the
calling worker's queue in list order, every other node is untouched, and the
node's own counters are reset to 1 and `initial_predecessor_amount`.  The
hypotheses record the code's assertions (`old_unfinished_amount > 0`,
`old_predecessor_amount > 0`) and the construction invariants (duplicate-free
successor lists of in-range, non-self nodes). -/
theorem job_completed_spec (st : RunState) (self : Nat)
    (hval : self < st.nodes.length)
    (hu32 : (getN st.nodes self).unfinished_amount < JobSched.u32) :
    (1 < (getN st.nodes self).unfinished_amount →
      job_completed self st =
        { st with nodes := st.nodes.set self
                              ({ getN st.nodes self with
                                 unfinished_amount :=
                                   (getN st.nodes self).unfinished_amount - 1 }) }) ∧
    ((getN st.nodes self).unfinished_amount = 1 →
      (getN st.nodes self).successors.Nodup →
      self ∉ (getN st.nodes self).successors →
      (∀ m ∈ (getN st.nodes self).successors, m < st.nodes.length) →
      (∀ m ∈ (getN st.nodes self).successors,
        1 ≤ (getN st.nodes m).predecessor_amount ∧
        (getN st.nodes m).predecessor_amount < JobSched.u32) →
      (getN (job_completed self st).nodes self).unfinished_amount = 1 ∧
      (getN (job_completed self st).nodes self).predecessor_amount =
        (getN st.nodes self).initial_predecessor_amount ∧
      (∀ m ∈ (getN st.nodes self).successors,
        (getN (job_completed self st).nodes m).predecessor_amount =
          (getN st.nodes m).predecessor_amount - 1) ∧
      (∀ j, j ∉ (getN st.nodes self).successors → j ≠ self →
        getN (job_completed self st).nodes j = getN st.nodes j) ∧
      (job_completed self st).queue =
        pushList ((getN st.nodes self).successors.filter
          (fun m => (getN st.nodes m).predecessor_amount == 1)) st.queue ∧
      (0 ≤ st.queue.bottom - st.queue.top →
        st.queue.bottom - st.queue.top +
          (((getN st.nodes self).successors.filter
            (fun m => (getN st.nodes m).predecessor_amount == 1)).length : Int)
          ≤ 4096 →
        (job_completed self st).queue.top = st.queue.top ∧
        (job_completed self st).queue.bottom =
          st.queue.bottom +
            ((getN st.nodes self).successors.filter
              (fun m => (getN st.nodes m).predecessor_amount == 1)).length)) := by
  constructor
  · intro hgt
    unfold job_completed
    dsimp only
    rw [if_pos hgt, JobSched.dec32_eq (by omega) hu32]
  · intro h1 hnd hself hv hp
    have heq : job_completed self st =
        (fun (st2 : RunState) =>
          { st2 with nodes := st2.nodes.set self
                                 ({ getN st2.nodes self with
                                    unfinished_amount := 1,
                                    predecessor_amount :=
                                      (getN st2.nodes self).initial_predecessor_amount }) })
          ((getN st.nodes self).successors.foldl fireOne
            { st with nodes := st.nodes.set self
                                  ({ getN st.nodes self with
                                     unfinished_amount :=
                                       JobSched.dec32
                                         (getN st.nodes self).unfinished_amount }) }) := by
      unfold job_completed
      dsimp only
      rw [if_neg (by omega)]
    rw [heq]
    dsimp only
    set st1 : RunState := { st with nodes := st.nodes.set self
                                                ({ getN st.nodes self with
                                                   unfinished_amount :=
                                                     JobSched.dec32 (getN st.nodes self).unfinished_amount }) }
      with hst1
    set st2 : RunState :=
      (getN st.nodes self).successors.foldl fireOne st1 with hst2
    have hq1 : st1.queue = st.queue := by rw [hst1]
    have hl1 : st1.nodes.length = st.nodes.length := by
      rw [hst1]
      simp
    have hg1self : getN st1.nodes self =
        { getN st.nodes self with
          unfinished_amount :=
            JobSched.dec32 (getN st.nodes self).unfinished_amount } := by
      rw [hst1]
      exact getN_set_self hval
    have hg1ne : ∀ j, j ≠ self → getN st1.nodes j = getN st.nodes j := by
      intro j hj
      rw [hst1]
      exact getN_set_ne hj
    have hv1 : ∀ m ∈ (getN st.nodes self).successors,
        m < st1.nodes.length := by
      intro m hm
      rw [hl1]
      exact hv m hm
    have hl2 : st2.nodes.length = st.nodes.length := by
      rw [hst2, fireFold_len, hl1]
    have hg2self : getN st2.nodes self = getN st1.nodes self := by
      rw [hst2]
      exact fireFold_getN_notmem _ _ hself
    have hmem_ne_self : ∀ m ∈ (getN st.nodes self).successors, m ≠ self := by
      intro m hm he
      subst he
      exact hself hm
    have hg2mem : ∀ m ∈ (getN st.nodes self).successors,
        getN st2.nodes m =
          { getN st.nodes m with
            predecessor_amount :=
              JobSched.dec32 (getN st.nodes m).predecessor_amount } := by
      intro m hm
      rw [hst2, fireFold_getN_mem _ _ hnd hv1 hm, hg1ne m (hmem_ne_self m hm)]
    have hg2ne : ∀ j, j ∉ (getN st.nodes self).successors → j ≠ self →
        getN st2.nodes j = getN st.nodes j := by
      intro j hj1 hj2
      rw [hst2, fireFold_getN_notmem _ _ hj1, hg1ne j hj2]
    have hfiltereq :
        ((getN st.nodes self).successors.filter
          (fun m => (getN st1.nodes m).predecessor_amount == 1)) =
        ((getN st.nodes self).successors.filter
          (fun m => (getN st.nodes m).predecessor_amount == 1)) := by
      apply List.filter_congr
      intro m hm
      rw [hg1ne m (hmem_ne_self m hm)]
    have hq2 : st2.queue =
        pushList ((getN st.nodes self).successors.filter
          (fun m => (getN st.nodes m).predecessor_amount == 1)) st.queue := by
      rw [hst2, fireFold_queue _ _ hnd hv1, hfiltereq, hq1]
    have hselflt2 : self < st2.nodes.length := by
      rw [hl2]
      exact hval
    refine ⟨?_, ?_, ?_, ?_, ?_, ?_⟩
    · dsimp only
      rw [getN_set_self hselflt2]
    · dsimp only
      rw [getN_set_self hselflt2]
      dsimp only
      rw [hg2self, hg1self]
    · intro m hm
      rw [getN_set_ne (hmem_ne_self m hm), hg2mem m hm]
      exact JobSched.dec32_eq (hp m hm).1 (hp m hm).2
    · intro j hj1 hj2
      rw [getN_set_ne hj2, hg2ne j hj1 hj2]
    · dsimp only
      exact hq2
    · intro hb0 hlen
      rw [hq2]
      exact pushList_counters _ _ hb0 hlen

end JobGraphNode

namespace JobGraphNode

open JobGraph

/-- Concrete run state for the `job_completed` witness: node 0 (one
unfinished job) has successors 1 and 2; node 1 waits on one predecessor,
node 2 on two. -/
def stEx : RunState :=
  { nodes :=
      [{ initial_predecessor_amount := 0, predecessor_amount := 0,
         unfinished_amount := 1, successors := [1, 2] },
       { initial_predecessor_amount := 1, predecessor_amount := 1,
         unfinished_amount := 1, successors := [] },
       { initial_predecessor_amount := 2, predecessor_amount := 2,
         unfinished_amount := 1, successors := [] }],
    queue := { ring := fun _ => none, top := 0, bottom := 0 } }

/-- Witness for `job_completed_spec`: completing node 0 of `stEx` resets its
counters, decrements both successors and pushes exactly node 1's root job. -/
theorem job_completed_spec_witness :
    (0 : Nat) < stEx.nodes.length ∧
    (getN stEx.nodes 0).unfinished_amount < JobSched.u32 ∧
    (getN (job_completed 0 stEx).nodes 0).unfinished_amount = 1 ∧
    (getN (job_completed 0 stEx).nodes 0).predecessor_amount =
      (getN stEx.nodes 0).initial_predecessor_amount ∧
    (getN (job_completed 0 stEx).nodes 1).predecessor_amount =
      (getN stEx.nodes 1).predecessor_amount - 1 ∧
    (job_completed 0 stEx).queue =
      pushList ((getN stEx.nodes 0).successors.filter
        (fun m => (getN stEx.nodes m).predecessor_amount == 1))
        stEx.queue :=
  have h := (job_completed_spec stEx 0 (by decide) (by decide)).2
    (by decide) (by decide) (by decide) (by decide) (by decide)
  ⟨by decide, by decide, h.1, h.2.1, h.2.2.1 1 (by decide), h.2.2.2.2.1⟩

end JobGraphNode

namespace JobGraph

/-- Number of predecessor-array entries a `new_node` call passes. -/
def predsLen : NodeSpec → Nat
  | .root => 0
  | .withPreds ps => ps.length

/-- Total number of predecessor entries across a construction sequence. -/
def totalPreds (specs : List NodeSpec) : Nat := (specs.map predsLen).sum

/-- Well-formed construction sequence: every predecessor form names at least
one already-existing node, only already-existing nodes, and the total number
of predecessor entries stays below `2^32` so the `uint32_t`
`initial_predecessor_amount` counters never wrap. -/
def SpecsWF (specs : List NodeSpec) : Prop :=
  (∀ k ps, k < specs.length → specs.getD k .root = .withPreds ps →
    ps ≠ [] ∧ ∀ p ∈ ps, p < k) ∧
  totalPreds specs < JobSched.u32

theorem totalPreds_append (l : List NodeSpec) (s : NodeSpec) :
    totalPreds (l ++ [s]) = totalPreds l + predsLen s := by
  simp [totalPreds]

theorem specGetD_irrel (specs : List NodeSpec) (k : Nat) (d1 d2 : NodeSpec)
    (h : k < specs.length) : specs.getD k d1 = specs.getD k d2 := by
  simp [List.getD_eq_getElem?_getD, List.getElem?_eq_getElem h]

theorem specsWF_prefix (specs : List NodeSpec) (s : NodeSpec)
    (h : SpecsWF (specs ++ [s])) : SpecsWF specs := by
  obtain ⟨h1, h2⟩ := h
  constructor
  · intro k ps hk hget
    refine h1 k ps (by simp; omega) ?_
    rw [specGetD_append_lt _ _ _ _ hk]
    exact hget
  · rw [totalPreds_append] at h2
    omega

theorem exists_max_mem (l : List Nat) (h : l ≠ []) :
    ∃ pm ∈ l, ∀ q ∈ l, q ≤ pm := by
  induction l with
  | nil => exact absurd rfl h
  | cons a t ih =>
    cases t with
    | nil =>
      refine ⟨a, List.mem_cons_self a [], ?_⟩
      intro q hq
      rw [List.mem_singleton] at hq
      omega
    | cons b t2 =>
      obtain ⟨pm, hpm, hmax⟩ := ih (by simp)
      by_cases hle : a ≤ pm
      · refine ⟨pm, List.mem_cons_of_mem a hpm, ?_⟩
        intro q hq
        rcases List.mem_cons.mp hq with hq | hq
        · omega
        · exact hmax q hq
      · refine ⟨a, List.mem_cons_self a _, ?_⟩
        intro q hq
        rcases List.mem_cons.mp hq with hq | hq
        · omega
        · exact le_trans (hmax q hq) (by omega)

theorem mem_rootFormIds_iff (specs : List NodeSpec) (k : Nat) :
    k ∈ rootFormIds specs ↔
      k < specs.length ∧ isRootSpec (specs.getD k (.withPreds [])) = true := by
  unfold rootFormIds
  rw [List.mem_filter, List.mem_range]

theorem isRootSpec_iff (s : NodeSpec) : isRootSpec s = true ↔ s = .root := by
  cases s <;> simp [isRootSpec]

end JobGraph

namespace JobGraph

/-- Invariants of the predecessor-wiring loop of `new_node`: well-formedness
is preserved, every `initial_predecessor_amount` grows by at most the number
of processed entries and never shrinks, and once the loop has processed a
predecessor that is maximal among the listed ones (in creation order), the
new node's `initial_predecessor_amount` is at least 1 — a maximal
predecessor can reach no other listed predecessor, so the redundancy filter
keeps it. -/
theorem preds_fold_inv (ps : List Nat) (nid : Nat) :
    ∀ (l : List Nat) (acc : Graph) (B : Nat),
      (∀ p ∈ l, p < nid) →
      nid < acc.nodes.length →
      WFNodes acc.nodes →
      (∀ j, (getN acc.nodes j).initial_predecessor_amount ≤ B) →
      B + l.length < JobSched.u32 →
      WFNodes ((l.foldl (new_node_step ps nid) acc).nodes) ∧
      (∀ j, (getN (l.foldl (new_node_step ps nid) acc).nodes
        j).initial_predecessor_amount ≤ B + l.length) ∧
      (∀ j, (getN acc.nodes j).initial_predecessor_amount ≤
        (getN (l.foldl (new_node_step ps nid) acc).nodes
          j).initial_predecessor_amount) ∧
      (∀ pm ∈ l, (∀ q ∈ ps, q ≤ pm) →
        1 ≤ (getN (l.foldl (new_node_step ps nid) acc).nodes
          nid).initial_predecessor_amount) := by
  intro l
  induction l with
  | nil =>
    intro acc B hl hnid hwf hbnd hbl
    refine ⟨hwf, ?_, fun j => le_refl _, ?_⟩
    · intro j
      simpa using hbnd j
    · intro pm hpm
      simp at hpm
  | cons p t ih =>
    intro acc B hl hnid hwf hbnd hbl
    rw [List.foldl_cons]
    have hlt : ∀ p2 ∈ t, p2 < nid :=
      fun p2 hp2 => hl p2 (List.mem_cons_of_mem p hp2)
    by_cases hred :
        (ps.any fun q => q != p && is_ancestor_of acc acc.nodes.length p q)
          = true
    · rw [new_node_step_drop hred]
      have hbl' : B + t.length < JobSched.u32 := by
        simp only [List.length_cons] at hbl
        omega
      obtain ⟨iwf, ibnd, imono, imax⟩ := ih acc B hlt hnid hwf hbnd hbl'
      refine ⟨iwf, ?_, imono, ?_⟩
      · intro j
        have := ibnd j
        simp only [List.length_cons]
        omega
      · intro pm hpm hmax
        rcases List.mem_cons.mp hpm with hpm | hpm
        · subst hpm
          rw [List.any_eq_true] at hred
          obtain ⟨q, hq, hqq⟩ := hred
          rw [Bool.and_eq_true] at hqq
          have hre := is_ancestor_of_sound (g := acc) hqq.2
          have h1 := reaches_lt hwf hre
          have h2 := hmax q hq
          omega
        · exact imax pm hpm hmax
    · have hredf :
          (ps.any fun q => q != p && is_ancestor_of acc acc.nodes.length p q)
            = false := Bool.eq_false_iff.mpr hred
      rw [new_node_step_keep hredf]
      have hplt : p < nid := hl p (List.mem_cons_self p t)
      have hpltlen : p < acc.nodes.length := lt_trans hplt hnid
      obtain ⟨hlen, hroot, hgp, hgn, hother⟩ :=
        add_successor_getN (g := acc) (Nat.ne_of_lt hplt) hpltlen hnid
      have hwfA := add_successor_wf hwf hplt hnid
      have hinc :
          JobSched.inc32 (getN acc.nodes nid).initial_predecessor_amount =
            (getN acc.nodes nid).initial_predecessor_amount + 1 := by
        refine JobSched.inc32_eq ?_
        have := hbnd nid
        simp only [List.length_cons] at hbl
        omega
      have hbndA : ∀ j,
          (getN (add_successor acc p nid).nodes
            j).initial_predecessor_amount ≤ B + 1 := by
        intro j
        by_cases hj1 : j = p
        · subst hj1
          rw [hgp]
          dsimp only
          have := hbnd j
          omega
        · by_cases hj2 : j = nid
          · subst hj2
            rw [hgn]
            dsimp only
            rw [hinc]
            have := hbnd j
            omega
          · rw [hother j hj1 hj2]
            have := hbnd j
            omega
      have hmonoA : ∀ j, (getN acc.nodes j).initial_predecessor_amount ≤
          (getN (add_successor acc p nid).nodes
            j).initial_predecessor_amount := by
        intro j
        by_cases hj1 : j = p
        · subst hj1
          rw [hgp]
        · by_cases hj2 : j = nid
          · subst hj2
            rw [hgn]
            dsimp only
            rw [hinc]
            omega
          · rw [hother j hj1 hj2]
      have hnidA : nid < (add_successor acc p nid).nodes.length := by
        rw [hlen]
        exact hnid
      have hblA : (B + 1) + t.length < JobSched.u32 := by
        simp only [List.length_cons] at hbl
        omega
      obtain ⟨iwf, ibnd, imono, imax⟩ :=
        ih (add_successor acc p nid) (B + 1) hlt hnidA hwfA hbndA hblA
      refine ⟨iwf, ?_, ?_, ?_⟩
      · intro j
        have := ibnd j
        simp only [List.length_cons]
        omega
      · intro j
        exact le_trans (hmonoA j) (imono j)
      · intro pm hpm hmax
        rcases List.mem_cons.mp hpm with hpm | hpm
        · have h1 : 1 ≤ (getN (add_successor acc p nid).nodes
              nid).initial_predecessor_amount := by
            rw [hgn]
            dsimp only
            rw [hinc]
            omega
          exact le_trans h1 (imono nid)
        · exact imax pm hpm hmax

end JobGraph

namespace JobGraph

/-- Effect of a whole predecessor-form `new_node` call on the invariants:
well-formedness survives, counters grow by at most the predecessor count and
never shrink, and the new node's `initial_predecessor_amount` ends at least
1 because a maximal listed predecessor always survives the filter. -/
theorem new_node_preds_inv (g : Graph) (ps : List Nat) (B : Nat)
    (hwf : WFNodes g.nodes) (hne : ps ≠ [])
    (hlt : ∀ p ∈ ps, p < g.nodes.length)
    (hbnd : ∀ j, (getN g.nodes j).initial_predecessor_amount ≤ B)
    (hbu : B + ps.length < JobSched.u32) :
    WFNodes (new_node_preds g ps).nodes ∧
    (∀ j, (getN (new_node_preds g ps).nodes j).initial_predecessor_amount ≤
      B + ps.length) ∧
    (∀ j, (getN g.nodes j).initial_predecessor_amount ≤
      (getN (new_node_preds g ps).nodes j).initial_predecessor_amount) ∧
    1 ≤ (getN (new_node_preds g ps).nodes
      g.nodes.length).initial_predecessor_amount := by
  have hg1bnd : ∀ j,
      (getN (g.nodes ++ [freshNode]) j).initial_predecessor_amount ≤ B := by
    intro j
    by_cases hj : j < g.nodes.length
    · rw [getN_append_lt hj]
      exact hbnd j
    · by_cases hj2 : j = g.nodes.length
      · subst hj2
        rw [getN_append_self]
        exact Nat.zero_le B
      · rw [getN_oob (by simp; omega)]
        exact Nat.zero_le B
  have hmain := preds_fold_inv ps g.nodes.length ps
    { nodes := g.nodes ++ [freshNode], root_nodes := g.root_nodes } B
    hlt (by simp) (wf_append_fresh hwf) hg1bnd hbu
  obtain ⟨iwf, ibnd, imono, imax⟩ := hmain
  have hg1mono : ∀ j, (getN g.nodes j).initial_predecessor_amount ≤
      (getN (g.nodes ++ [freshNode]) j).initial_predecessor_amount := by
    intro j
    by_cases hj : j < g.nodes.length
    · rw [getN_append_lt hj]
    · rw [getN_oob (le_of_not_lt hj)]
      exact Nat.zero_le _
  obtain ⟨pm, hpm, hmax⟩ := exists_max_mem ps hne
  exact ⟨iwf, ibnd, fun j => le_trans (hg1mono j) (imono j),
    imax pm hpm hmax⟩

/-- Invariants of a whole construction sequence: the graph is well-formed,
every `initial_predecessor_amount` is bounded by the total predecessor
count, and every node built with the predecessor form has
`initial_predecessor_amount ≥ 1`. -/
theorem build_inv (specs : List NodeSpec) (h : SpecsWF specs) :
    WFNodes (buildGraph specs).nodes ∧
    (∀ j, (getN (buildGraph specs).nodes j).initial_predecessor_amount ≤
      totalPreds specs) ∧
    (∀ k ps, k < specs.length → specs.getD k .root = .withPreds ps →
      1 ≤ (getN (buildGraph specs).nodes k).initial_predecessor_amount) := by
  induction specs using List.reverseRecOn with
  | nil =>
    refine ⟨?_, ?_, ?_⟩
    · intro i hi
      simp [buildGraph] at hi
    · intro j
      rw [getN_oob (by simp [buildGraph])]
      exact Nat.zero_le _
    · intro k ps hk
      simp at hk
  | append_singleton t s ih =>
    have hpre := specsWF_prefix t s h
    obtain ⟨iwf, ibnd, ige⟩ := ih hpre
    rw [buildGraph_append]
    have hlen := buildGraph_len t
    cases s with
    | root =>
      refine ⟨wf_append_fresh iwf, ?_, ?_⟩
      · intro j
        have htp : totalPreds t ≤ totalPreds (t ++ [NodeSpec.root]) := by
          rw [totalPreds_append]
          omega
        by_cases hj : j < (buildGraph t).nodes.length
        · rw [show (buildStep (buildGraph t) NodeSpec.root).nodes =
              (buildGraph t).nodes ++ [freshNode] from rfl, getN_append_lt hj]
          exact le_trans (ibnd j) htp
        · by_cases hj2 : j = (buildGraph t).nodes.length
          · subst hj2
            rw [show (buildStep (buildGraph t) NodeSpec.root).nodes =
                (buildGraph t).nodes ++ [freshNode] from rfl, getN_append_self]
            exact Nat.zero_le _
          · rw [getN_oob (by simp [buildStep, new_node_root]; omega)]
            exact Nat.zero_le _
      · intro k ps hk hget
        by_cases hkl : k < t.length
        · rw [specGetD_append_lt _ _ _ _ hkl] at hget
          rw [show (buildStep (buildGraph t) NodeSpec.root).nodes =
              (buildGraph t).nodes ++ [freshNode] from rfl,
            getN_append_lt (by omega)]
          exact ige k ps hkl hget
        · have hkeq : k = t.length := by
            simp at hk
            omega
          subst hkeq
          rw [specGetD_append_self] at hget
          exact absurd hget (by simp)
    | withPreds ps0 =>
      have hk0 := h.1 t.length ps0 (by simp)
        (by rw [specGetD_append_self])
      have hbu : totalPreds t + ps0.length < JobSched.u32 := by
        have := h.2
        rw [totalPreds_append] at this
        exact this
      obtain ⟨nwf, nbnd, nmono, nnew⟩ :=
        new_node_preds_inv (buildGraph t) ps0 (totalPreds t) iwf hk0.1
          (fun p hp => by rw [hlen]; exact hk0.2 p hp) ibnd hbu
      refine ⟨nwf, ?_, ?_⟩
      · intro j
        have := nbnd j
        rw [totalPreds_append]
        exact this
      · intro k ps hk hget
        by_cases hkl : k < t.length
        · rw [specGetD_append_lt _ _ _ _ hkl] at hget
          exact le_trans (ige k ps hkl hget) (nmono k)
        · have hkeq : k = t.length := by
            simp at hk
            omega
          subst hkeq
          rw [← hlen]
          exact nnew

/-- C9: a node created with the predecessor form (over a well-formed
construction sequence) always keeps at least one listed predecessor after
the redundancy filter, so its `initial_predecessor_amount` is at least 1 and
it is never in the root-node list; consequently `get_root_job` only ever
returns root jobs of nodes created with the no-predecessor form. -/
theorem preds_form_never_root (specs : List NodeSpec) (h : SpecsWF specs) :
    (∀ k ps, k < specs.length → specs.getD k .root = .withPreds ps →
      1 ≤ (getN (buildGraph specs).nodes k).initial_predecessor_amount ∧
      k ∉ (buildGraph specs).root_nodes) ∧
    (∀ i j, get_root_job (buildGraph specs) i = some j →
      j < specs.length ∧ specs.getD j .root = .root) := by
  obtain ⟨_, _, hge⟩ := build_inv specs h
  constructor
  · intro k ps hk hget
    refine ⟨hge k ps hk hget, ?_⟩
    rw [buildGraph_root, mem_rootFormIds_iff]
    rintro ⟨_, hroot⟩
    rw [isRootSpec_iff, specGetD_irrel specs k (.withPreds []) .root hk]
      at hroot
    rw [hroot] at hget
    exact absurd hget (by simp)
  · intro i j hj
    unfold get_root_job at hj
    by_cases hlen : (buildGraph specs).root_nodes.length ≤ i
    · rw [if_pos hlen] at hj
      exact absurd hj (by simp)
    · rw [if_neg hlen] at hj
      have hji := Option.some.inj hj
      have hmem : j ∈ (buildGraph specs).root_nodes := by
        rw [← hji, List.getD_eq_getElem?_getD,
          List.getElem?_eq_getElem (by omega)]
        exact List.getElem_mem _
      rw [buildGraph_root, mem_rootFormIds_iff] at hmem
      obtain ⟨hjl, hroot⟩ := hmem
      rw [isRootSpec_iff,
        specGetD_irrel specs j (.withPreds []) .root hjl] at hroot
      exact ⟨hjl, hroot⟩

/-- Witness for `preds_form_never_root`: on `specsEx`, node 1 (built from
predecessors `[0]`) has a positive initial predecessor count and is not a
root node. -/
theorem preds_form_never_root_witness :
    SpecsWF specsEx ∧ (1 : Nat) < specsEx.length ∧
    specsEx.getD 1 .root = .withPreds [0] ∧
    (1 ≤ (getN (buildGraph specsEx).nodes 1).initial_predecessor_amount ∧
      1 ∉ (buildGraph specsEx).root_nodes) :=
  have hwf : SpecsWF specsEx := by
    constructor
    · intro k ps hk hget
      simp only [specsEx, List.length_cons, List.length_nil] at hk
      interval_cases k
      · exact absurd hget (by simp [specsEx])
      · have hps : ps = [0] := by
          simp [specsEx] at hget
          exact hget.symm
        subst hps
        refine ⟨by simp, ?_⟩
        intro p hp
        rw [List.mem_singleton] at hp
        omega
      · exact absurd hget (by simp [specsEx])
    · norm_num [totalPreds, specsEx, predsLen, JobSched.u32]
  ⟨hwf, by norm_num [specsEx], by simp [specsEx],
    (preds_form_never_root specsEx hwf).1 1 [0] (by norm_num [specsEx])
      (by simp [specsEx])⟩

end JobGraph
